import Mathlib

set_option synthInstance.maxHeartbeats 1000000

/- Shallow embedding of `scripts/python-skywater-pdk/skywater_pdk/liberty.py`.

   Modelling conventions:
   * Python strings are lists of characters (`Str`).
   * Python dicts (which preserve insertion order) are association lists.
   * Python floats are carried by their shortest round-trip `repr` text,
     which is exactly the text `json.dumps` emits for them; integers are
     carried as `Int`.
   * Fallible Python code (assert failures, TypeErrors, ...) is modelled
     with `Except Str`; the payload of an assertion error is the key/path
     named by the assert message. -/

abbrev Str := List Char

def ccsnMarker : Str := (r"ccsn_").toList

def pinMarker : Str := (r"pin ").toList

def inputVoltageKey : Str := (r"input_voltage").toList

def timingKey : Str := (r"timing").toList

def ccsnoiseSuffix : Str := (r"_ccsnoise").toList

def pwrlkgSuffix : Str := (r"_pwrlkg").toList

def typeErrorMsg : Str := (r"TypeError").toList

def valueErrorMsg : Str := (r"ValueError").toList

def indexErrorMsg : Str := (r"IndexError").toList

/- ---------------------------------------------------------------------
   class TimingType(enum.IntFlag):  basic = 1; ccsnoise = 2 | basic; leakage = 4
   --------------------------------------------------------------------- -/

namespace TimingType

def basic : Nat := 1

def ccsnoise : Nat := 2 ||| basic

def leakage : Nat := 4

/- Python `IntFlag.__contains__`: `x in y` holds iff every bit of `x`
   is set in `y`, i.e. `x & y == x`. -/
def ttIn (x y : Nat) : Bool := x &&& y == x

/- The three named variants, in enum declaration order. -/
def variants : List Nat := [basic, ccsnoise, leakage]

/- `TimingType.file`: the filename suffix of a variant. -/
def file (t : Nat) : Str :=
  if t == ccsnoise then ccsnoiseSuffix
  else if t == leakage then pwrlkgSuffix
  else []

end TimingType

/- Python `name.endswith(suf)`. -/
def endswith (s suf : Str) : Bool := decide (s.drop (s.length - suf.length) = suf)

namespace TimingType

/- `TimingType.parse`: strip a known suffix, defaulting to `basic`.
   `name[:-n]` for positive `n` is `take (length - n)`. -/
def parse (name : Str) : Str × Nat :=
  if endswith name ccsnoiseSuffix then
    (name.take (name.length - ccsnoiseSuffix.length), ccsnoise)
  else if endswith name pwrlkgSuffix then
    (name.take (name.length - pwrlkgSuffix.length), leakage)
  else (name, basic)

/- `TimingType.types`: the singular variants contained in a flag value,
   with `basic` dropped when `ccsnoise` is present (CPython iterates the
   small-int set in this same ascending order). -/
def typesOf (v : Nat) : List Nat :=
  let l := variants.filter (fun t => ttIn t v)
  if l.contains ccsnoise then l.filter (fun t => !(t == basic)) else l

end TimingType

/-- C2: TimingType containment (`X in Y` = every bit of X set in Y) is
reflexive on every variant; `ccsnoise` contains `basic`; `leakage` contains
neither `basic` nor `ccsnoise`, and neither `basic` nor `ccsnoise` contains
`leakage`. -/
theorem claim_C2_timing_containment :
    (TimingType.variants.all fun t => TimingType.ttIn t t) = true ∧
    TimingType.ttIn TimingType.basic TimingType.ccsnoise = true ∧
    TimingType.ttIn TimingType.basic TimingType.leakage = false ∧
    TimingType.ttIn TimingType.ccsnoise TimingType.leakage = false ∧
    TimingType.ttIn TimingType.leakage TimingType.basic = false ∧
    TimingType.ttIn TimingType.leakage TimingType.ccsnoise = false := by
  decide

/- ---------------------------------------------------------------------
   Value trees: the JSON documents fed to the generator.
   --------------------------------------------------------------------- -/

inductive JVal where
  | jnull : JVal
  | jbool : Bool → JVal
  | jint : Int → JVal
  | jflt : Str → JVal
  | jstr : Str → JVal
  | jarr : List JVal → JVal
  | jobj : List (Str × JVal) → JVal

def intDumps : Int → Str
  | .ofNat n => Nat.toDigits 10 n
  | .negSucc n => '-' :: Nat.toDigits 10 (n + 1)

/- JSON string escaping (quote and backslash; control characters do not
   occur in the documents this tool handles). -/
def escChar (c : Char) : Str :=
  if c == '"' then ['\\', '"']
  else if c == '\\' then ['\\', '\\']
  else [c]

def joinSep (sep : Str) : List Str → Str
  | [] => []
  | [x] => x
  | x :: y :: rest => x ++ sep ++ joinSep sep (y :: rest)

def commaSp : Str := (r", ").toList

mutual

/- `json.dumps` on a value tree (floats print as their carried repr). -/
def json_dumps : JVal → Str
  | .jnull => (r"null").toList
  | .jbool true => (r"true").toList
  | .jbool false => (r"false").toList
  | .jint n => intDumps n
  | .jflt r => r
  | .jstr s => '"' :: (s.map escChar).flatten ++ ['"']
  | .jarr l => '\x5b' :: joinSep commaSp (json_dumpsList l) ++ ['\x5d']
  | .jobj m => '\x7b' :: joinSep commaSp (json_dumpsObj m) ++ ['\x7d']

def json_dumpsList : List JVal → List Str
  | [] => []
  | v :: rest => json_dumps v :: json_dumpsList rest

def json_dumpsObj : List (Str × JVal) → List Str
  | [] => []
  | (k, v) :: rest =>
      (('"' :: (k.map escChar).flatten ++ ['"']) ++ (r": ").toList ++ json_dumps v) ::
        json_dumpsObj rest

end

/- ---------------------------------------------------------------------
   def liberty_float(f):  (liberty.py lines 373-407)
   --------------------------------------------------------------------- -/

/- WIDTH = len(str(0.0083333333)) -/
def WIDTH : Nat := (r"0.0083333333").toList.length

/- The padding logic of `liberty_float`, applied to the `json.dumps` text. -/
def liberty_float_str (s : Str) : Str :=
  if 'e' ∈ s then
    let a0 := s.takeWhile (fun c => !(c == 'e'))
    let b := s.drop (a0.length + 1)
    let a1 := if '.' ∈ a0 then a0 else a0 ++ ['.']
    let a2 := a1 ++ List.replicate (WIDTH - (a1.length + b.length + 1)) '0'
    a2 ++ 'e' :: b
  else if '.' ∈ s then s ++ List.replicate (WIDTH - s.length) '0'
  else
    let s1 := if s.length < WIDTH then s ++ ['.'] else s
    s1 ++ List.replicate (WIDTH - s1.length) '0'

def liberty_float (v : JVal) : Str := liberty_float_str (json_dumps v)

/-- C1: the fixed float formatter: `liberty_float(0.0083333333)` returns
`"0.0083333333"`; `liberty_float(1.5)` returns a string of length 12;
`liberty_float(1e20)` returns an exponential form whose mantissa length plus
exponent-part length plus 1 equals 12; and the integer input
`liberty_float(1)` returns `"1.0000000000"`.  Floats reach the formatter as
their shortest round-trip repr text, which is what `json.dumps` emits. -/
theorem claim_C1_liberty_float :
    liberty_float (.jflt ((r"0.0083333333").toList)) = (r"0.0083333333").toList ∧
    (liberty_float (.jflt ((r"1.5").toList))).length = 12 ∧
    (∃ a b, liberty_float (.jflt ((r"1e+20").toList)) = a ++ 'e' :: b ∧
      a.length + b.length + 1 = 12 ∧ '.' ∈ a) ∧
    liberty_float (.jint 1) = (r"1.0000000000").toList := by
  refine ⟨?_, ?_, ⟨(r"1.000000").toList, (r"+20").toList, ?_, ?_, ?_⟩, ?_⟩ <;> decide

/- ---------------------------------------------------------------------
   C4: parse / file round trip.
   --------------------------------------------------------------------- -/

theorem endswith_append (a b : Str) : endswith (a ++ b) b = true := by
  simp [endswith, List.length_append, Nat.add_sub_cancel, List.drop_left]

theorem take_append_cancel (a b : Str) :
    (a ++ b).take ((a ++ b).length - b.length) = a := by
  simp [List.length_append, Nat.add_sub_cancel, List.take_left]

/- If `x` ends with `s` and `t` is no longer than `s`, then `x` ends with
   `t` exactly when `s` does. -/
theorem endswith_len_le (x s t : Str) (hs : endswith x s = true)
    (hlen : t.length ≤ s.length) : endswith x t = endswith s t := by
  have hx : x.drop (x.length - s.length) = s := of_decide_eq_true hs
  have hsx : s.length ≤ x.length := by
    have hlen2 := congrArg List.length hx
    simp only [List.length_drop] at hlen2
    omega
  have harith : x.length - t.length = (x.length - s.length) + (s.length - t.length) := by
    omega
  have hd : x.drop (x.length - t.length) = s.drop (s.length - t.length) := by
    rw [harith, ← List.drop_drop, hx]
  simp [endswith, hd]

/-- C4 counterexample: the round trip fails as universally stated: for the
base name `"foo_ccsnoise"` and the `basic` variant (empty file suffix),
`parse` strips the `_ccsnoise` ending of the base name itself, returning
`("foo", ccsnoise)` rather than the original pair. -/
theorem claim_C4_cex :
    TimingType.parse ((r"foo_ccsnoise").toList ++ TimingType.file TimingType.basic)
      ≠ ((r"foo_ccsnoise").toList, TimingType.basic) := by
  decide

/-- C4 (amended): for every base name, parsing `base ++ file_suffix(v)`
returns `(base, v)` unconditionally for the `ccsnoise` and `leakage`
variants, and for the `basic` variant whenever the base name does not
itself end in `"_ccsnoise"` or `"_pwrlkg"`. -/
theorem claim_C4_roundtrip_amended (base : Str) :
    TimingType.parse (base ++ TimingType.file TimingType.ccsnoise) = (base, TimingType.ccsnoise) ∧
    TimingType.parse (base ++ TimingType.file TimingType.leakage) = (base, TimingType.leakage) ∧
    (endswith base ccsnoiseSuffix = false → endswith base pwrlkgSuffix = false →
      TimingType.parse (base ++ TimingType.file TimingType.basic) = (base, TimingType.basic)) := by
  refine ⟨?_, ?_, ?_⟩
  · have hfile : TimingType.file TimingType.ccsnoise = ccsnoiseSuffix := by decide
    rw [hfile]
    simp [TimingType.parse, endswith_append, take_append_cancel]
  · have hfile : TimingType.file TimingType.leakage = pwrlkgSuffix := by decide
    rw [hfile]
    have hcc : endswith (base ++ pwrlkgSuffix) ccsnoiseSuffix = false := by
      cases hval : endswith (base ++ pwrlkgSuffix) ccsnoiseSuffix with
      | false => rfl
      | true =>
        have heq := endswith_len_le (base ++ pwrlkgSuffix) ccsnoiseSuffix pwrlkgSuffix
          hval (by decide)
        rw [endswith_append] at heq
        exact absurd heq.symm (by decide)
    simp [TimingType.parse, hcc, endswith_append, take_append_cancel]
  · intro h1 h2
    have hfile : TimingType.file TimingType.basic = [] := by decide
    rw [hfile, List.append_nil]
    simp [TimingType.parse, h1, h2]

theorem claim_C4_witness :
    TimingType.parse ((r"foo_ccsnoise").toList ++ TimingType.file TimingType.ccsnoise)
      = ((r"foo_ccsnoise").toList, TimingType.ccsnoise) ∧
    endswith ((r"ff_100C_1v65").toList) ccsnoiseSuffix = false ∧
    endswith ((r"ff_100C_1v65").toList) pwrlkgSuffix = false ∧
    TimingType.parse ((r"ff_100C_1v65").toList ++ TimingType.file TimingType.basic)
      = ((r"ff_100C_1v65").toList, TimingType.basic) := by
  refine ⟨?_, by decide, by decide, ?_⟩
  · exact (claim_C4_roundtrip_amended ((r"foo_ccsnoise").toList)).1
  · exact (claim_C4_roundtrip_amended ((r"ff_100C_1v65").toList)).2.2
      (by decide) (by decide)

/- ---------------------------------------------------------------------
   RE_LIBERTY_LIST = re.compile("(.*)_([0-9]+)"); liberty_sort; attr_sort_key
   (liberty.py lines 334-353 and 519-533)
   --------------------------------------------------------------------- -/

def digitsVal (l : Str) : Nat :=
  l.foldl (fun acc c => acc * 10 + (c.toNat - ('0').toNat)) 0

/- Greedy prefix match of `(.*)_([0-9]+)`: group 1 is the longest prefix
   followed by an underscore and at least one digit; group 2 is the maximal
   digit run after that underscore. -/
def reMatch : Str → Option (Str × Nat)
  | [] => none
  | c :: rest =>
    match reMatch rest with
    | some (p, n) => some (c :: p, n)
    | none =>
      match rest with
      | d :: _ =>
        if c == '_' && d.isDigit then
          some ([], digitsVal (rest.takeWhile Char.isDigit))
        else none
      | [] => none

/- `liberty_sort(k)`: numeric suffix when the regex matches, `inf` (here
   `none`) otherwise, paired with the (stripped) name. -/
def liberty_sort (k : Str) : Option Nat × Str :=
  match reMatch k with
  | some (p, n) => (some n, p)
  | none => (none, k)

def compAttrKey : Str := (r"comp_attribute").toList

/- The sort key computed by `attr_sort_key` inside `liberty_dict`; only the
   dict key is inspected (the paired value is unused by the Python code).
   `k.split(" ", 1)` splits at the first space.  A `comp_attribute` key
   sorts under its attribute name with a `None` secondary value. -/
def attr_sort_key (k : Str) : Option Nat × Str × Option Str :=
  let ktype := if ' ' ∈ k then k.takeWhile (fun c => !(c == ' ')) else k
  let kvalue :=
    if ' ' ∈ k then k.drop ((k.takeWhile (fun c => !(c == ' '))).length + 1) else []
  let p : Str × Option Str :=
    if ktype == compAttrKey then (kvalue, none) else (ktype, some kvalue)
  ((liberty_sort p.1).1, (liberty_sort p.1).2, p.2)

/- Python tuple comparison on the sort keys.  An int compares below
   `float('inf')` (`none`); Python would raise a TypeError when comparing
   `None` with a string secondary value, which never happens on tied keys
   in real documents - that case is modelled as `false`. -/
def optNatLtB : Option Nat → Option Nat → Bool
  | some a, some b => decide (a < b)
  | some _, none => true
  | none, _ => false

def strLtB : Str → Str → Bool
  | _, [] => false
  | [], _ :: _ => true
  | a :: as, b :: bs => if a < b then true else if b < a then false else strLtB as bs

def optStrLtB : Option Str → Option Str → Bool
  | some a, some b => strLtB a b
  | _, _ => false

def skeyLt (x y : Option Nat × Str × Option Str) : Bool :=
  optNatLtB x.1 y.1 ||
    (x.1 == y.1 && (strLtB x.2.1 y.2.1 ||
      (x.2.1 == y.2.1 && optStrLtB x.2.2 y.2.2)))

/- Python `sorted(..., key=attr_sort_key)` is a stable sort; a stable sort's
   output is uniquely determined by the strict-lt comparison, so a stable
   insertion sort reproduces it. -/
def insKey (x : Str) : List Str → List Str
  | [] => [x]
  | y :: ys =>
    if skeyLt (attr_sort_key y) (attr_sort_key x) then y :: insKey x ys
    else x :: y :: ys

def sortKeys : List Str → List Str
  | [] => []
  | x :: xs => insKey x (sortKeys xs)

theorem reMatch_cons_isSome (c : Char) (l : Str) (h : (reMatch l).isSome = true) :
    (reMatch (c :: l)).isSome = true := by
  cases hm : reMatch l with
  | none => rw [hm] at h; exact absurd h (by decide)
  | some pn => simp [reMatch, hm]

theorem reMatch_append_isSome (name rest : Str) (h : (reMatch rest).isSome = true) :
    (reMatch (name ++ rest)).isSome = true := by
  induction name with
  | nil => simpa using h
  | cons c name ih => exact reMatch_cons_isSome c (name ++ rest) ih

theorem reMatch_cons_eq (c : Char) (rest : Str) :
    reMatch (c :: rest) =
      match reMatch rest with
      | some (p, n) => some (c :: p, n)
      | none =>
        match rest with
        | d :: _ =>
          if c == '_' && d.isDigit then
            some ([], digitsVal (rest.takeWhile Char.isDigit))
          else none
        | [] => none := rfl

theorem reMatch_underscore_digit (d : Char) (ds : Str) (hd : d.isDigit = true) :
    (reMatch ('_' :: d :: ds)).isSome = true := by
  rw [reMatch_cons_eq]
  cases hm : reMatch (d :: ds) with
  | none => simp [hd]
  | some pn => cases pn; simp

/-- C5: the serializer's key ordering: the three keys `variable_1`,
`index_3`, `values` sort in exactly that order; their computed sort keys are
`(1, "variable", "")`, `(3, "index", "")`, `(inf, "values", "")`; every key
of the form `name_<digits>` gets a numeric sort key; and the comparison
places numeric-suffixed keys (ordered by suffix, then bare name) before all
suffix-less keys, which are ordered by name. -/
theorem claim_C5_sort_key :
    (sortKeys [(r"values").toList, (r"variable_1").toList, (r"index_3").toList]
      = [(r"variable_1").toList, (r"index_3").toList, (r"values").toList]) ∧
    (attr_sort_key ((r"variable_1").toList) = (some 1, (r"variable").toList, some [])) ∧
    (attr_sort_key ((r"index_3").toList) = (some 3, (r"index").toList, some [])) ∧
    (attr_sort_key ((r"values").toList) = (none, (r"values").toList, some [])) ∧
    (∀ name ds, ds ≠ [] → ds.all Char.isDigit = true →
      ∃ n p, liberty_sort (name ++ '_' :: ds) = (some n, p)) ∧
    (∀ n s v s2 v2, skeyLt (some n, s, v) (none, s2, v2) = true) ∧
    (∀ n m s v s2 v2, n < m → skeyLt (some n, s, v) (some m, s2, v2) = true) ∧
    (∀ n s s2 v v2, strLtB s s2 = true → skeyLt (some n, s, v) (some n, s2, v2) = true) ∧
    (∀ s s2 v v2, strLtB s s2 = true → skeyLt (none, s, v) (none, s2, v2) = true) := by
  refine ⟨by decide, by decide, by decide, by decide, ?_, ?_, ?_, ?_, ?_⟩
  · intro name ds hne hall
    cases ds with
    | nil => exact absurd rfl hne
    | cons d ds =>
      have hd : d.isDigit = true := by
        have := List.all_eq_true.mp hall d (by simp)
        simpa using this
      have hsome : (reMatch (name ++ '_' :: d :: ds)).isSome = true :=
        reMatch_append_isSome name ('_' :: d :: ds) (reMatch_underscore_digit d ds hd)
      obtain ⟨pn, hpn⟩ := Option.isSome_iff_exists.mp hsome
      exact ⟨pn.2, pn.1, by simp [liberty_sort, hpn]⟩
  · intro n s v s2 v2
    simp [skeyLt, optNatLtB]
  · intro n m s v s2 v2 h
    simp [skeyLt, optNatLtB, h]
  · intro n s s2 v v2 h
    simp [skeyLt, optNatLtB, h]
  · intro s s2 v v2 h
    simp [skeyLt, optNatLtB, h]

theorem claim_C5_witness :
    ((r"index_12").toList ≠ []) ∧
    (∃ n p, liberty_sort ((r"index").toList ++ '_' :: (r"12").toList) = (some n, p)) ∧
    skeyLt (some 1, (r"variable").toList, some []) (none, (r"values").toList, some []) = true ∧
    skeyLt (some 1, (r"variable").toList, some []) (some 3, (r"index").toList, some []) = true := by
  refine ⟨by decide, ?_, ?_, ?_⟩
  · exact claim_C5_sort_key.2.2.2.2.1 ((r"index").toList) ((r"12").toList)
      (by decide) (by decide)
  · exact claim_C5_sort_key.2.2.2.2.2.1 1 ((r"variable").toList) (some [])
      ((r"values").toList) (some [])
  · exact claim_C5_sort_key.2.2.2.2.2.2.1 1 3 ((r"variable").toList) (some [])
      ((r"index").toList) (some []) (by decide)

/- ---------------------------------------------------------------------
   def remove_ccsnoise(data):  (liberty.py lines 239-265)
   --------------------------------------------------------------------- -/

def startswith (pre s : Str) : Bool := pre.isPrefixOf s

/- Python substring test `needle in hay`. -/
def hasSub (needle : Str) : Str → Bool
  | [] => needle.isEmpty
  | c :: rest => needle.isPrefixOf (c :: rest) || hasSub needle rest

/- Python dict lookup on an association list (first matching key). -/
def alookup {α : Type} (k : Str) : List (Str × α) → Option α
  | [] => none
  | (k2, v) :: rest => if k2 == k then some v else alookup k rest

def memKey {α : Type} (k : Str) (d : List (Str × α)) : Bool := (alookup k d).isSome

def mapExc {α β : Type} (f : α → Except Str β) : List α → Except Str (List β)
  | [] => .ok []
  | x :: rest =>
    match f x, mapExc f rest with
    | .ok y, .ok ys => .ok (y :: ys)
    | .error e, _ => .error e
    | .ok _, .error e => .error e

/- Overwriting the value stored under key `k` (the in-place mutation of the
   object a dict entry holds). -/
def updKey {α : Type} (k : Str) (x : α) (kv : Str × α) : Str × α :=
  if kv.1 == k then (kv.1, x) else kv

/- One element `t` of a pin's `timing` list: delete every key starting with
   "ccsn_".  Iterating a string yields length-1 strings, which never carry
   the 5-character prefix, so nothing happens; iterating a number raises a
   TypeError; for a list, a non-string element breaks `k.startswith` and a
   matching string element makes `del t[k]` raise. -/
def stripTimingElem : JVal → Except Str JVal
  | .jobj m => .ok (.jobj (m.filter (fun kv => !(startswith ccsnMarker kv.1))))
  | .jstr s => .ok (.jstr s)
  | .jarr l =>
    if l.all (fun e => match e with
        | .jstr s => !(startswith ccsnMarker s)
        | _ => false) then .ok (.jarr l)
    else .error typeErrorMsg
  | _ => .error typeErrorMsg

/- `for t in pin_timing`: a dict iterates its keys and a string its
   characters (both leave the value unchanged here); a number is not
   iterable. -/
def stripTiming : JVal → Except Str JVal
  | .jarr l =>
    match mapExc stripTimingElem l with
    | .ok l2 => .ok (.jarr l2)
    | .error e => .error e
  | .jobj m => .ok (.jobj m)
  | .jstr s => .ok (.jstr s)
  | _ => .error typeErrorMsg

/- The body run for a `pin <name>` entry: delete `input_voltage` when
   present, then rewrite the `timing` value.  For a non-dict pin value the
   Python membership tests work on strings (substring) and lists (element
   equality) but `del` / string indexing then raises a TypeError; `in` on a
   number raises at once. -/
def pinProcess : JVal → Except Str JVal
  | .jobj m =>
    match alookup timingKey (m.filter (fun kv => !(kv.1 == inputVoltageKey))) with
    | none => .ok (.jobj (m.filter (fun kv => !(kv.1 == inputVoltageKey))))
    | some tv =>
      match stripTiming tv with
      | .ok tv2 =>
        .ok (.jobj ((m.filter (fun kv => !(kv.1 == inputVoltageKey))).map
          (updKey timingKey tv2)))
      | .error e => .error e
  | .jstr s =>
    if hasSub inputVoltageKey s then .error typeErrorMsg
    else if hasSub timingKey s then .error typeErrorMsg
    else .ok (.jstr s)
  | .jarr l =>
    if l.any (fun e => match e with | .jstr s => s == inputVoltageKey | _ => false) then
      .error typeErrorMsg
    else if l.any (fun e => match e with | .jstr s => s == timingKey | _ => false) then
      .error typeErrorMsg
    else .ok (.jarr l)
  | _ => .error typeErrorMsg

/- The top-level loop of remove_ccsnoise over `list(data.items())`: drop
   every key containing "ccsn_", process `pin ` keys, keep the rest. -/
def remove_ccsnoise : List (Str × JVal) → Except Str (List (Str × JVal))
  | [] => .ok []
  | (k, v) :: rest =>
    if hasSub ccsnMarker k then remove_ccsnoise rest
    else if startswith pinMarker k then
      match pinProcess v, remove_ccsnoise rest with
      | .ok v2, .ok r => .ok ((k, v2) :: r)
      | .error e, _ => .error e
      | .ok _, .error e => .error e
    else
      match remove_ccsnoise rest with
      | .ok r => .ok ((k, v) :: r)
      | .error e => .error e

theorem filter_idem {α : Type} (p : α → Bool) (l : List α) :
    (l.filter p).filter p = l.filter p := by
  induction l with
  | nil => rfl
  | cons x xs ih =>
    by_cases h : p x = true
    · simp [List.filter_cons, h, ih]
    · simp [List.filter_cons, h, ih]

theorem updKey_fst {α : Type} (k : Str) (x : α) (kv : Str × α) :
    (updKey k x kv).1 = kv.1 := by
  unfold updKey; split <;> rfl

theorem filter_key_map {α : Type} (p : Str → Bool) (k : Str) (x : α)
    (m : List (Str × α)) :
    (m.map (updKey k x)).filter (fun kv => p kv.1)
      = (m.filter (fun kv => p kv.1)).map (updKey k x) := by
  induction m with
  | nil => rfl
  | cons kv rest ih =>
    by_cases h : p kv.1 = true
    · simp [List.filter_cons, updKey_fst, h, ih]
    · simp [List.filter_cons, updKey_fst, h, ih]

theorem updKey_of_beq {α : Type} (k : Str) (x : α) (k2 : Str) (v : α)
    (h : (k2 == k) = true) : updKey k x (k2, v) = (k2, x) := by
  simp [updKey, h]

theorem updKey_of_bne {α : Type} (k : Str) (x : α) (k2 : Str) (v : α)
    (h : (k2 == k) = false) : updKey k x (k2, v) = (k2, v) := by
  simp [updKey, h]

theorem alookup_map_updKey {α : Type} (k : Str) (x : α) (m : List (Str × α))
    (h : (alookup k m).isSome = true) :
    alookup k (m.map (updKey k x)) = some x := by
  induction m with
  | nil => simp [alookup] at h
  | cons kv rest ih =>
    obtain ⟨k2, v⟩ := kv
    cases hk : (k2 == k) with
    | true =>
      rw [List.map_cons, updKey_of_beq k x k2 v hk]
      simp [alookup, hk]
    | false =>
      simp only [alookup, hk] at h
      rw [List.map_cons, updKey_of_bne k x k2 v hk]
      simp only [alookup, hk, if_false]
      simp at h
      exact ih h

theorem map_updKey_updKey {α : Type} (k : Str) (x y : α) (m : List (Str × α)) :
    (m.map (updKey k x)).map (updKey k y) = m.map (updKey k y) := by
  induction m with
  | nil => rfl
  | cons kv rest ih =>
    obtain ⟨k2, v⟩ := kv
    cases hk : (k2 == k) with
    | true =>
      rw [List.map_cons, List.map_cons, List.map_cons, updKey_of_beq k x k2 v hk,
        updKey_of_beq k y k2 x hk, updKey_of_beq k y k2 v hk, ih]
    | false =>
      rw [List.map_cons, List.map_cons, List.map_cons, updKey_of_bne k x k2 v hk,
        updKey_of_bne k y k2 v hk, ih]

theorem filter_pIV_map (k : Str) (x : JVal) (m : List (Str × JVal)) :
    (m.map (updKey k x)).filter (fun kv => !(kv.1 == inputVoltageKey))
      = (m.filter (fun kv => !(kv.1 == inputVoltageKey))).map (updKey k x) :=
  filter_key_map (fun s => !(s == inputVoltageKey)) k x m

theorem stripTimingElem_idem (e e2 : JVal) (h : stripTimingElem e = .ok e2) :
    stripTimingElem e2 = .ok e2 := by
  cases e with
  | jobj m =>
    simp only [stripTimingElem] at h
    injection h with h
    subst h
    simp [stripTimingElem, filter_idem]
  | jstr s =>
    simp only [stripTimingElem] at h
    injection h with h
    subst h
    rfl
  | jarr l =>
    by_cases hc : (l.all fun e => match e with
        | .jstr s => !(startswith ccsnMarker s)
        | _ => false) = true
    · simp only [stripTimingElem, if_pos hc] at h
      injection h with h
      subst h
      simp [stripTimingElem, hc]
    · simp only [stripTimingElem, if_neg hc] at h
      exact Except.noConfusion h
  | jnull => simp [stripTimingElem] at h
  | jbool b => simp [stripTimingElem] at h
  | jint n => simp [stripTimingElem] at h
  | jflt r => simp [stripTimingElem] at h

theorem mapExc_idem {α : Type} (f : α → Except Str α)
    (hf : ∀ x y, f x = .ok y → f y = .ok y) (l l2 : List α)
    (h : mapExc f l = .ok l2) : mapExc f l2 = .ok l2 := by
  induction l generalizing l2 with
  | nil =>
    simp only [mapExc] at h
    injection h with h
    subst h
    rfl
  | cons x xs ih =>
    simp only [mapExc] at h
    cases hfx : f x with
    | error e => rw [hfx] at h; simp at h
    | ok y =>
      cases hrest : mapExc f xs with
      | error e => rw [hfx, hrest] at h; simp at h
      | ok ys =>
        rw [hfx, hrest] at h
        injection h with h
        subst h
        simp only [mapExc]
        rw [hf x y hfx, ih ys hrest]

theorem stripTiming_idem (t t2 : JVal) (h : stripTiming t = .ok t2) :
    stripTiming t2 = .ok t2 := by
  cases t with
  | jarr l =>
    simp only [stripTiming] at h
    cases hm : mapExc stripTimingElem l with
    | error e => rw [hm] at h; simp at h
    | ok l2 =>
      rw [hm] at h
      injection h with h
      subst h
      simp only [stripTiming]
      rw [mapExc_idem stripTimingElem stripTimingElem_idem l l2 hm]
  | jobj m =>
    simp only [stripTiming] at h
    injection h with h
    subst h
    rfl
  | jstr s =>
    simp only [stripTiming] at h
    injection h with h
    subst h
    rfl
  | jnull => simp [stripTiming] at h
  | jbool b => simp [stripTiming] at h
  | jint n => simp [stripTiming] at h
  | jflt r => simp [stripTiming] at h

theorem pinProcess_jobj_some (m : List (Str × JVal)) (tv : JVal)
    (halk : alookup timingKey (m.filter fun kv => !(kv.1 == inputVoltageKey))
      = some tv) :
    pinProcess (.jobj m) =
      match stripTiming tv with
      | .ok tv2 =>
        .ok (.jobj ((m.filter (fun kv => !(kv.1 == inputVoltageKey))).map
          (updKey timingKey tv2)))
      | .error e => .error e := by
  simp only [pinProcess]
  rw [halk]

theorem pinProcess_idem (v v2 : JVal) (h : pinProcess v = .ok v2) :
    pinProcess v2 = .ok v2 := by
  cases v with
  | jobj m =>
    cases halk : alookup timingKey (m.filter fun kv => !(kv.1 == inputVoltageKey)) with
    | none =>
      simp only [pinProcess] at h
      rw [halk] at h
      injection h with h
      subst h
      simp only [pinProcess]
      rw [filter_idem, halk]
    | some tv =>
      rw [pinProcess_jobj_some m tv halk] at h
      cases hst : stripTiming tv with
      | error e => rw [hst] at h; simp at h
      | ok tv2 =>
        rw [hst] at h
        injection h with h
        subst h
        have halk2 : alookup timingKey
            (((m.filter (fun kv => !(kv.1 == inputVoltageKey))).map
              (updKey timingKey tv2)).filter (fun kv => !(kv.1 == inputVoltageKey)))
            = some tv2 := by
          rw [filter_pIV_map, filter_idem]
          exact alookup_map_updKey timingKey tv2
            (m.filter fun kv => !(kv.1 == inputVoltageKey)) (by rw [halk]; rfl)
        rw [pinProcess_jobj_some _ tv2 halk2, stripTiming_idem tv tv2 hst]
        simp only [map_updKey_updKey, filter_pIV_map, filter_idem]
  | jstr s =>
    simp only [pinProcess] at h
    split at h
    next hc1 => exact Except.noConfusion h
    next hc1 =>
      split at h
      next hc2 => exact Except.noConfusion h
      next hc2 =>
        injection h with h
        subst h
        simp [pinProcess, hc1, hc2]
  | jarr l =>
    simp only [pinProcess] at h
    split at h
    next hc1 => exact Except.noConfusion h
    next hc1 =>
      split at h
      next hc2 => exact Except.noConfusion h
      next hc2 =>
        injection h with h
        subst h
        simp [pinProcess, hc1, hc2]
  | jnull => simp [pinProcess] at h
  | jbool b => simp [pinProcess] at h
  | jint n => simp [pinProcess] at h
  | jflt r => simp [pinProcess] at h

/-- C6: the noise-stripping transform is idempotent: whenever
`remove_ccsnoise` succeeds on a value tree, running it again on the result
succeeds and leaves the tree unchanged. -/
theorem claim_C6_strip_idempotent (d d2 : List (Str × JVal))
    (h : remove_ccsnoise d = .ok d2) :
    remove_ccsnoise d2 = .ok d2 := by
  induction d generalizing d2 with
  | nil =>
    simp only [remove_ccsnoise] at h
    injection h with h
    subst h
    rfl
  | cons kv rest ih =>
    obtain ⟨k, v⟩ := kv
    simp only [remove_ccsnoise] at h
    split at h
    next hcc => exact ih d2 h
    next hcc =>
      split at h
      next hpin =>
        cases hpv : pinProcess v with
        | error e => rw [hpv] at h; simp at h
        | ok v2 =>
          cases hr : remove_ccsnoise rest with
          | error e => rw [hpv, hr] at h; simp at h
          | ok r =>
            rw [hpv, hr] at h
            injection h with h
            subst h
            simp only [remove_ccsnoise]
            rw [if_neg hcc, if_pos hpin, pinProcess_idem v v2 hpv, ih r hr]
      next hpin =>
        cases hr : remove_ccsnoise rest with
        | error e => rw [hr] at h; simp at h
        | ok r =>
          rw [hr] at h
          injection h with h
          subst h
          simp only [remove_ccsnoise]
          rw [if_neg hcc, if_neg hpin, ih r hr]

theorem claim_C6_witness :
    remove_ccsnoise
      [((r"pin A").toList, .jobj [(timingKey,
          .jarr [.jobj [((r"cell_rise").toList, .jint 3)]])])]
      = .ok [((r"pin A").toList, .jobj [(timingKey,
          .jarr [.jobj [((r"cell_rise").toList, .jint 3)]])])] :=
  claim_C6_strip_idempotent
    [((r"ccsn_a").toList, .jint 1),
     ((r"pin A").toList, .jobj [
        (inputVoltageKey, .jstr ((r"v").toList)),
        (timingKey, .jarr [.jobj [((r"ccsn_b").toList, .jint 2),
          ((r"cell_rise").toList, .jint 3)]])])]
    [((r"pin A").toList, .jobj [(timingKey,
        .jarr [.jobj [((r"cell_rise").toList, .jint 3)]])])]
    (by rfl)

/- ---------------------------------------------------------------------
   C7: input-variant selection (main, lines 638-653) and the strip step of
   generate (lines 300-302 / 316-318).
   --------------------------------------------------------------------- -/

def select_input (otype avail : Nat) : Nat :=
  if otype == TimingType.basic && TimingType.ttIn TimingType.ccsnoise avail then
    TimingType.ccsnoise
  else otype

/- generate removes the noise data unless the requested output variant is
   ccsnoise. -/
def generate_strip (otype : Nat) (d : List (Str × JVal)) :
    Except Str (List (Str × JVal)) :=
  if otype == TimingType.ccsnoise then .ok d else remove_ccsnoise d

/- What remove_ccsnoise actually guarantees: no top-level key contains
   "ccsn_", and inside every `pin ` entry whose value is a group, there is
   no `input_voltage` key and no "ccsn_"-prefixed key in any group element
   of its `timing` list. -/
def NoiseStripped (d : List (Str × JVal)) : Prop :=
  ∀ kv ∈ d, hasSub ccsnMarker kv.1 = false ∧
    (startswith pinMarker kv.1 = true →
      ∀ m, kv.2 = .jobj m →
        (∀ kv2 ∈ m, (kv2.1 == inputVoltageKey) = false) ∧
        (∀ tv, alookup timingKey m = some tv → ∀ l, tv = .jarr l →
          ∀ e ∈ l, ∀ t, e = .jobj t →
            ∀ kv3 ∈ t, startswith ccsnMarker kv3.1 = false))

theorem stripTimingElem_clean (e e2 : JVal) (h : stripTimingElem e = .ok e2)
    (t : List (Str × JVal)) (ht : e2 = .jobj t) :
    ∀ kv ∈ t, startswith ccsnMarker kv.1 = false := by
  cases e with
  | jobj m =>
    simp only [stripTimingElem] at h
    injection h with h
    rw [← h] at ht
    injection ht with ht
    subst ht
    intro kv hkv
    have hp := (List.mem_filter.mp hkv).2
    simpa using hp
  | jstr s =>
    simp only [stripTimingElem] at h
    injection h with h
    rw [← h] at ht
    exact absurd ht (by simp)
  | jarr l =>
    by_cases hc : (l.all fun e => match e with
        | .jstr s => !(startswith ccsnMarker s)
        | _ => false) = true
    · simp only [stripTimingElem, if_pos hc] at h
      injection h with h
      rw [← h] at ht
      exact absurd ht (by simp)
    · simp only [stripTimingElem, if_neg hc] at h
      exact Except.noConfusion h
  | jnull => simp [stripTimingElem] at h
  | jbool b => simp [stripTimingElem] at h
  | jint n => simp [stripTimingElem] at h
  | jflt r => simp [stripTimingElem] at h

theorem mapExc_mem {α β : Type} (f : α → Except Str β) (l : List α)
    (l2 : List β) (h : mapExc f l = .ok l2) :
    ∀ y ∈ l2, ∃ x, f x = .ok y := by
  induction l generalizing l2 with
  | nil =>
    simp only [mapExc] at h
    injection h with h
    subst h
    intro y hy
    exact absurd hy (by simp)
  | cons x xs ih =>
    simp only [mapExc] at h
    cases hfx : f x with
    | error e => rw [hfx] at h; simp at h
    | ok y =>
      cases hrest : mapExc f xs with
      | error e => rw [hfx, hrest] at h; simp at h
      | ok ys =>
        rw [hfx, hrest] at h
        injection h with h
        subst h
        intro z hz
        rcases List.mem_cons.mp hz with hz | hz
        · exact ⟨x, hz ▸ hfx⟩
        · exact ih ys hrest z hz

theorem stripTiming_clean (tv tv2 : JVal) (h : stripTiming tv = .ok tv2)
    (l : List JVal) (hl : tv2 = .jarr l) :
    ∀ e ∈ l, ∀ t, e = .jobj t →
      ∀ kv ∈ t, startswith ccsnMarker kv.1 = false := by
  cases tv with
  | jarr l0 =>
    simp only [stripTiming] at h
    cases hm : mapExc stripTimingElem l0 with
    | error e => rw [hm] at h; simp at h
    | ok l2 =>
      rw [hm] at h
      injection h with h
      rw [← h] at hl
      injection hl with hl
      subst hl
      intro e he t ht kv hkv
      obtain ⟨x, hx⟩ := mapExc_mem stripTimingElem l0 l2 hm e he
      exact stripTimingElem_clean x e hx t ht kv hkv
  | jobj m =>
    simp only [stripTiming] at h
    injection h with h
    rw [← h] at hl
    exact absurd hl (by simp)
  | jstr s =>
    simp only [stripTiming] at h
    injection h with h
    rw [← h] at hl
    exact absurd hl (by simp)
  | jnull => simp [stripTiming] at h
  | jbool b => simp [stripTiming] at h
  | jint n => simp [stripTiming] at h
  | jflt r => simp [stripTiming] at h

theorem pinProcess_clean (v v2 : JVal) (h : pinProcess v = .ok v2)
    (m2 : List (Str × JVal)) (hm : v2 = .jobj m2) :
    (∀ kv ∈ m2, (kv.1 == inputVoltageKey) = false) ∧
    (∀ tv, alookup timingKey m2 = some tv → ∀ l, tv = .jarr l →
      ∀ e ∈ l, ∀ t, e = .jobj t →
        ∀ kv ∈ t, startswith ccsnMarker kv.1 = false) := by
  cases v with
  | jobj m =>
    cases halk : alookup timingKey (m.filter fun kv => !(kv.1 == inputVoltageKey)) with
    | none =>
      simp only [pinProcess] at h
      rw [halk] at h
      injection h with h
      rw [← h] at hm
      injection hm with hm
      subst hm
      constructor
      · intro kv hkv
        have hp := (List.mem_filter.mp hkv).2
        simpa using hp
      · intro tv htv
        rw [halk] at htv
        exact absurd htv (by simp)
    | some tv0 =>
      rw [pinProcess_jobj_some m tv0 halk] at h
      cases hst : stripTiming tv0 with
      | error e => rw [hst] at h; simp at h
      | ok tv2 =>
        rw [hst] at h
        injection h with h
        rw [← h] at hm
        injection hm with hm
        subst hm
        constructor
        · intro kv hkv
          obtain ⟨kv0, hkv0, hkveq⟩ := List.mem_map.mp hkv
          have hp := (List.mem_filter.mp hkv0).2
          rw [← hkveq, updKey_fst]
          simpa using hp
        · intro tv htv l hl
          rw [alookup_map_updKey timingKey tv2
            (m.filter fun kv => !(kv.1 == inputVoltageKey)) (by rw [halk]; rfl)] at htv
          injection htv with htv
          subst htv
          exact stripTiming_clean tv0 tv2 hst l hl
  | jstr s =>
    simp only [pinProcess] at h
    split at h
    next hc1 => exact Except.noConfusion h
    next hc1 =>
      split at h
      next hc2 => exact Except.noConfusion h
      next hc2 =>
        injection h with h
        rw [← h] at hm
        exact absurd hm (by simp)
  | jarr l =>
    simp only [pinProcess] at h
    split at h
    next hc1 => exact Except.noConfusion h
    next hc1 =>
      split at h
      next hc2 => exact Except.noConfusion h
      next hc2 =>
        injection h with h
        rw [← h] at hm
        exact absurd hm (by simp)
  | jnull => simp [pinProcess] at h
  | jbool b => simp [pinProcess] at h
  | jint n => simp [pinProcess] at h
  | jflt r => simp [pinProcess] at h

theorem remove_ccsnoise_clean (d d2 : List (Str × JVal))
    (h : remove_ccsnoise d = .ok d2) : NoiseStripped d2 := by
  induction d generalizing d2 with
  | nil =>
    simp only [remove_ccsnoise] at h
    injection h with h
    subst h
    intro kv hkv
    exact absurd hkv (by simp)
  | cons kv rest ih =>
    obtain ⟨k, v⟩ := kv
    simp only [remove_ccsnoise] at h
    split at h
    next hcc => exact ih d2 h
    next hcc =>
      have hccf : hasSub ccsnMarker k = false := by
        cases hval : hasSub ccsnMarker k with
        | false => rfl
        | true => exact absurd hval hcc
      split at h
      next hpin =>
        cases hpv : pinProcess v with
        | error e => rw [hpv] at h; simp at h
        | ok v2 =>
          cases hr : remove_ccsnoise rest with
          | error e => rw [hpv, hr] at h; simp at h
          | ok r =>
            rw [hpv, hr] at h
            injection h with h
            subst h
            intro kv2 hkv2
            rcases List.mem_cons.mp hkv2 with hkv2 | hkv2
            · subst hkv2
              refine ⟨hccf, ?_⟩
              intro _ m2 hm2
              exact pinProcess_clean v v2 hpv m2 hm2
            · exact ih r hr kv2 hkv2
      next hpin =>
        cases hr : remove_ccsnoise rest with
        | error e => rw [hr] at h; simp at h
        | ok r =>
          rw [hr] at h
          injection h with h
          subst h
          intro kv2 hkv2
          rcases List.mem_cons.mp hkv2 with hkv2 | hkv2
          · subst hkv2
            exact ⟨hccf, fun hp => absurd hp hpin⟩
          · exact ih r hr kv2 hkv2

/-- C7 counterexample: the stripping applied when `basic` output is produced
from a `ccsnoise` source does NOT remove every noise-value key: a
`ccsn_`-marked key nested inside an ordinary (non-`pin `) sub-group survives
unchanged, so the claim that the emitted document contains no noise-value
key is false as stated. -/
theorem claim_C7_cex :
    select_input TimingType.basic
      (TimingType.ccsnoise ||| TimingType.leakage) = TimingType.ccsnoise ∧
    generate_strip TimingType.basic
      [((r"grp").toList, .jobj [((r"ccsn_x").toList, .jint 1)])]
      = .ok [((r"grp").toList, .jobj [((r"ccsn_x").toList, .jint 1)])] ∧
    alookup ((r"grp").toList)
      [((r"grp").toList, JVal.jobj [((r"ccsn_x").toList, JVal.jint 1)])]
      = some (JVal.jobj [((r"ccsn_x").toList, JVal.jint 1)]) ∧
    memKey ((r"ccsn_x").toList) [((r"ccsn_x").toList, (JVal.jint 1))] = true := by
  refine ⟨rfl, rfl, rfl, rfl⟩

/-- C7 (amended): when `basic` output is requested from a corner whose
variant set includes `ccsnoise`, the ccsnoise files are selected as the
source; for every other request the input variant equals the requested
output variant; requesting `ccsnoise` output preserves the document
unchanged; and for any other output variant the stripping yields a document
with no `ccsn_`-marked key at the top level, and inside every `pin ` group
no `input_voltage` key and no `ccsn_`-prefixed key in the group elements of
its `timing` list (noise keys nested anywhere else survive). -/
theorem claim_C7_variant_selection_amended :
    (∀ avail, TimingType.ttIn TimingType.ccsnoise avail = true →
      select_input TimingType.basic avail = TimingType.ccsnoise) ∧
    (∀ otype avail,
      (otype == TimingType.basic
        && TimingType.ttIn TimingType.ccsnoise avail) = false →
      select_input otype avail = otype) ∧
    (∀ d, generate_strip TimingType.ccsnoise d = .ok d) ∧
    (∀ otype d d2, (otype == TimingType.ccsnoise) = false →
      generate_strip otype d = .ok d2 → NoiseStripped d2) := by
  refine ⟨?_, ?_, fun d => rfl, ?_⟩
  · intro avail hccs
    simp [select_input, hccs]
  · intro otype avail hother
    simp only [select_input, hother, if_false]
    rw [if_neg]
    simp [hother]
  · intro otype d d2 hne h
    simp only [generate_strip, hne, Bool.false_eq_true, if_false] at h
    exact remove_ccsnoise_clean d d2 h

theorem claim_C7_witness :
    select_input TimingType.basic TimingType.ccsnoise = TimingType.ccsnoise ∧
    select_input TimingType.basic TimingType.basic = TimingType.basic ∧
    select_input TimingType.leakage TimingType.leakage = TimingType.leakage ∧
    select_input TimingType.leakage TimingType.ccsnoise = TimingType.leakage ∧
    NoiseStripped [] := by
  have h := claim_C7_variant_selection_amended
  exact ⟨h.1 TimingType.ccsnoise (by decide),
    h.2.1 TimingType.basic TimingType.basic (by decide),
    h.2.1 TimingType.leakage TimingType.leakage (by decide),
    h.2.1 TimingType.leakage TimingType.ccsnoise (by decide),
    h.2.2.2 TimingType.basic [((r"ccsn_a").toList, JVal.jint 1)] []
      (by decide) (by rfl)⟩

/- ---------------------------------------------------------------------
   C3: the merge step of generate (liberty.py lines 280-298) and the
   independent per-cell processing (lines 308-321).
   --------------------------------------------------------------------- -/

/- The accumulation loop `for k, v in d.items(): assert k not in
   common_data; common_data[k] = v`.  The assert message names the
   colliding key. -/
def mergeInto (acc : List (Str × JVal)) : List (Str × JVal) →
    Except Str (List (Str × JVal))
  | [] => .ok acc
  | (k, v) :: rest =>
    if memKey k acc then .error k else mergeInto (acc ++ [(k, v)]) rest

/- generate merges exactly two fragments into common_data: the common
   fragment, then the per-corner top-level fragment. -/
def mergeCommonTop (common top : List (Str × JVal)) :
    Except Str (List (Str × JVal)) :=
  match mergeInto [] common with
  | .ok acc => mergeInto acc top
  | .error e => .error e

/- The data flow of generate: merge common+top, strip it, then strip each
   per-cell fragment independently - per-cell keys are never checked
   against the merged dict. -/
def generate_model (otype : Nat) (common top : List (Str × JVal))
    (cellsData : List (List (Str × JVal))) :
    Except Str (List (Str × JVal) × List (List (Str × JVal))) :=
  match mergeCommonTop common top with
  | .error e => .error e
  | .ok cd =>
    match generate_strip otype cd with
    | .error e => .error e
    | .ok cd2 =>
      match mapExc (generate_strip otype) cellsData with
      | .error e => .error e
      | .ok cells => .ok (cd2, cells)

theorem memKey_append {α : Type} (k : Str) (a b : List (Str × α)) :
    memKey k (a ++ b) = (memKey k a || memKey k b) := by
  induction a with
  | nil => simp [memKey, alookup]
  | cons kv rest ih =>
    obtain ⟨k2, v⟩ := kv
    cases hk : (k2 == k) with
    | true => simp [memKey, alookup, hk]
    | false =>
      simp only [List.cons_append, memKey, alookup, hk, if_false]
      simp only [memKey] at ih
      simp [ih]

theorem memKey_eq_true_iff {α : Type} (k : Str) (l : List (Str × α)) :
    memKey k l = true ↔ k ∈ l.map Prod.fst := by
  induction l with
  | nil => simp [memKey, alookup]
  | cons kv rest ih =>
    obtain ⟨k2, v⟩ := kv
    cases hk : (k2 == k) with
    | true =>
      have he : k2 = k := eq_of_beq hk
      simp [memKey, alookup, hk, he]
    | false =>
      have hne : ¬ k = k2 := by
        intro he
        rw [he] at hk
        simp at hk
      simp only [memKey, alookup, hk, if_false] at ih ⊢
      simp [ih, hne]

theorem memKey_singleton {α : Type} (k k2 : Str) (v : α) :
    memKey k2 [(k, v)] = (k == k2) := by
  cases hval : (k == k2) <;> simp [memKey, alookup, hval]

theorem mergeInto_ok (l : List (Str × JVal)) :
    ∀ acc, (∀ k ∈ l.map Prod.fst, memKey k acc = false) →
    (l.map Prod.fst).Nodup →
    mergeInto acc l = .ok (acc ++ l) := by
  induction l with
  | nil => intro acc _ _; simp [mergeInto]
  | cons kv rest ih =>
    intro acc h1 h2
    obtain ⟨k, v⟩ := kv
    have h2' : (k :: rest.map Prod.fst).Nodup := by simpa using h2
    have hnd := List.nodup_cons.mp h2'
    have hk : memKey k acc = false := h1 k (by simp)
    have h1' : ∀ k2 ∈ rest.map Prod.fst, memKey k2 (acc ++ [(k, v)]) = false := by
      intro k2 hk2
      have hacc2 : memKey k2 acc = false := h1 k2 (by simp [hk2])
      have hne : (k == k2) = false := by
        cases hval : (k == k2) with
        | false => rfl
        | true => exact absurd (eq_of_beq hval ▸ hk2) hnd.1
      rw [memKey_append, hacc2, memKey_singleton k k2 v, hne]
      rfl
    simp only [mergeInto, hk, Bool.false_eq_true, if_false]
    rw [ih (acc ++ [(k, v)]) h1' hnd.2]
    simp

theorem mergeInto_error_of_shared (l : List (Str × JVal)) :
    ∀ acc k0, (l.map Prod.fst).Nodup → memKey k0 acc = true →
    k0 ∈ l.map Prod.fst →
    ∃ k, mergeInto acc l = .error k ∧ memKey k acc = true ∧
      k ∈ l.map Prod.fst := by
  induction l with
  | nil => intro acc k0 _ _ hl; simp at hl
  | cons kv rest ih =>
    intro acc k0 hnd0 hacc hl
    obtain ⟨k, v⟩ := kv
    have hnd0' : (k :: rest.map Prod.fst).Nodup := by simpa using hnd0
    have hnd := List.nodup_cons.mp hnd0'
    by_cases hmk : memKey k acc = true
    · refine ⟨k, ?_, hmk, by simp⟩
      simp [mergeInto, hmk]
    · have hl' : k0 = k ∨ k0 ∈ rest.map Prod.fst := by simpa using hl
      have hk0rest : k0 ∈ rest.map Prod.fst := by
        rcases hl' with h | h
        · exact absurd (h ▸ hacc) hmk
        · exact h
      have hacc2 : memKey k0 (acc ++ [(k, v)]) = true := by
        rw [memKey_append, hacc]
        rfl
      obtain ⟨k1, hk1e, hk1acc, hk1rest⟩ :=
        ih (acc ++ [(k, v)]) k0 hnd.2 hacc2 hk0rest
      refine ⟨k1, ?_, ?_, by simp [hk1rest]⟩
      · simp only [mergeInto]
        rw [if_neg hmk]
        exact hk1e
      · have hk1ne : (k == k1) = false := by
          cases hval : (k == k1) with
          | false => rfl
          | true => exact absurd (eq_of_beq hval ▸ hk1rest) hnd.1
        rw [memKey_append, memKey_singleton k k1 v, hk1ne] at hk1acc
        simpa using hk1acc

/-- C3 counterexample: a key shared between the common fragment and a
per-cell fragment is NOT a fatal collision: `generate` only asserts
disjointness while merging common and top-level data, and serializes each
per-cell fragment separately, so the run succeeds even though key `"a"`
occurs in two of the three sources. -/
theorem claim_C3_cex :
    memKey ((r"a").toList) [((r"a").toList, JVal.jint 1)] = true ∧
    memKey ((r"a").toList) [((r"a").toList, JVal.jint 3)] = true ∧
    generate_model TimingType.basic
      [((r"a").toList, JVal.jint 1)] [((r"b").toList, JVal.jint 2)]
      [[((r"a").toList, JVal.jint 3)]]
      = .ok ([((r"a").toList, JVal.jint 1), ((r"b").toList, JVal.jint 2)],
             [[((r"a").toList, JVal.jint 3)]]) :=
  ⟨rfl, rfl, rfl⟩

/-- C3 (amended): key disjointness is enforced only between the common
fragment and the per-corner top-level fragment (each a Python dict, so with
internally unique keys): a key present in both makes the merge fail with
the colliding key as the assert payload, disjoint fragments merge to their
concatenation, and the per-cell fragments are processed independently of
the merged dict, with no cross-source key check. -/
theorem claim_C3_merge_collision_amended (common top : List (Str × JVal))
    (hc : (common.map Prod.fst).Nodup) (ht : (top.map Prod.fst).Nodup) :
    ((∃ k0, memKey k0 common = true ∧ memKey k0 top = true) →
      ∃ k, mergeCommonTop common top = .error k ∧
        memKey k common = true ∧ memKey k top = true) ∧
    ((∀ k, memKey k common = true → memKey k top = false) →
      mergeCommonTop common top = .ok (common ++ top)) ∧
    (∀ otype cellsData cd cd2 cells,
      mergeCommonTop common top = .ok cd →
      generate_strip otype cd = .ok cd2 →
      mapExc (generate_strip otype) cellsData = .ok cells →
      generate_model otype common top cellsData = .ok (cd2, cells)) := by
  have hcommon : mergeInto [] common = .ok common := by
    have := mergeInto_ok common [] (fun k _ => rfl) hc
    simpa using this
  refine ⟨?_, ?_, ?_⟩
  · rintro ⟨k0, hkc, hkt⟩
    obtain ⟨k, hke, hkacc, hkmem⟩ :=
      mergeInto_error_of_shared top common k0 ht hkc
        ((memKey_eq_true_iff k0 top).mp hkt)
    refine ⟨k, ?_, hkacc, (memKey_eq_true_iff k top).mpr hkmem⟩
    simp only [mergeCommonTop]
    rw [hcommon]
    exact hke
  · intro hdisj
    simp only [mergeCommonTop]
    rw [hcommon]
    refine mergeInto_ok top common ?_ ht
    intro k hk
    cases hval : memKey k common with
    | false => rfl
    | true =>
      have hfalse := hdisj k hval
      rw [(memKey_eq_true_iff k top).mpr hk] at hfalse
      exact absurd hfalse (by decide)
  · intro otype cellsData cd cd2 cells h1 h2 h3
    simp [generate_model, h1, h2, h3]

theorem claim_C3_witness :
    mergeCommonTop [((r"a").toList, JVal.jint 1)] [((r"b").toList, JVal.jint 2)]
      = .ok [((r"a").toList, JVal.jint 1), ((r"b").toList, JVal.jint 2)] ∧
    (∃ k, mergeCommonTop [((r"a").toList, JVal.jint 1)]
        [((r"a").toList, JVal.jint 2)] = .error k ∧
      memKey k [((r"a").toList, JVal.jint 1)] = true ∧
      memKey k [((r"a").toList, JVal.jint 2)] = true) := by
  constructor
  · refine (claim_C3_merge_collision_amended
      [((r"a").toList, JVal.jint 1)] [((r"b").toList, JVal.jint 2)]
      (by decide) (by decide)).2.1 ?_
    intro k hk
    rw [memKey_singleton] at hk
    rw [memKey_singleton, ← eq_of_beq hk]
    decide
  · exact (claim_C3_merge_collision_amended
      [((r"a").toList, JVal.jint 1)] [((r"a").toList, JVal.jint 2)]
      (by decide) (by decide)).1 ⟨(r"a").toList, rfl, rfl⟩

/- ---------------------------------------------------------------------
   C8: the corner-selection flow of main (liberty.py lines 617-654).
   Prints are modelled as a report list; the returned Nat is the retcode.
   --------------------------------------------------------------------- -/

inductive Report where
  | unknownCorner (name : Str) : Report
  | availableCorners (names : List Str) : Report
  | unsupported (corner : Str) (otype supported : Nat) : Report
  | generated (corner : Str) (otype itype : Nat) : Report
deriving DecidableEq

def insStr (x : Str) : List Str → List Str
  | [] => [x]
  | y :: ys => if strLtB x y then x :: y :: ys else y :: insStr x ys

def sortStr : List Str → List Str
  | [] => []
  | x :: xs => insStr x (sortStr xs)

/- The per-corner loop: an unsupported output variant reports the corner,
   the request and the variant the corner does support, and aborts with
   retcode 1; otherwise the corner is generated from the selected input
   variant.  (A name missing from the dict would be a Python KeyError; the
   caller never reaches that case.) -/
def corner_loop (corners : List (Str × Nat)) (otype : Nat) : List Str → Nat × List Report
  | [] => (0, [])
  | c :: rest =>
    match alookup c corners with
    | none => (2, [])
    | some itype =>
      if TimingType.ttIn otype itype = false then
        (1, [.unsupported c otype itype])
      else
        let r := corner_loop corners otype rest
        (r.1, .generated c otype (select_input otype itype) :: r.2)

/- main's corner handling: expand the 'all' wildcard, report unknown corner
   names (clearing the request), list the available corners when no valid
   request remains, else run the per-corner loop.  `describe()` text is
   omitted from the availableCorners report. -/
def allStr : Str := (r"all").toList

def main_run (corners : List (Str × Nat)) (requested0 : List Str) (otype : Nat) :
    Nat × List Report :=
  let requested1 :=
    if requested0 == [allStr] then
      sortStr ((corners.filter (fun kv => TimingType.ttIn otype kv.2)).map Prod.fst)
    else requested0
  let unknown := requested1.filter (fun c => !(memKey c corners))
  let retcode := if unknown.isEmpty then 0 else 1
  let requested2 := if retcode != 0 then [] else requested1
  if requested2.isEmpty then
    (retcode, unknown.map Report.unknownCorner
      ++ [Report.availableCorners (sortStr (corners.map Prod.fst))])
  else
    let r := corner_loop corners otype requested2
    (r.1, unknown.map Report.unknownCorner ++ r.2)

theorem corner_loop_unsupported (corners : List (Str × Nat)) (otype : Nat)
    (req : List Str) :
    (∀ c ∈ req, memKey c corners = true) →
    (∃ c itype, c ∈ req ∧ alookup c corners = some itype ∧
      TimingType.ttIn otype itype = false) →
    (corner_loop corners otype req).1 = 1 ∧
    ∃ c2 itype2, alookup c2 corners = some itype2 ∧
      TimingType.ttIn otype itype2 = false ∧
      Report.unsupported c2 otype itype2 ∈ (corner_loop corners otype req).2 := by
  induction req with
  | nil =>
    rintro _ ⟨c, itype, hc, _, _⟩
    exact absurd hc (by simp)
  | cons c0 rest ih =>
    rintro hall ⟨c, itype, hc, hlk, hbad⟩
    cases halk0 : alookup c0 corners with
    | none =>
      have := hall c0 (by simp)
      rw [memKey, halk0] at this
      exact absurd this (by decide)
    | some itype0 =>
      by_cases hsup : TimingType.ttIn otype itype0 = false
      · refine ⟨?_, c0, itype0, halk0, hsup, ?_⟩
        · simp [corner_loop, halk0, hsup]
        · simp [corner_loop, halk0, hsup]
      · have hcrest : c ∈ rest := by
          rcases List.mem_cons.mp hc with h | h
          · subst h
            rw [hlk] at halk0
            injection halk0 with he
            rw [he] at hbad
            exact absurd hbad hsup
          · exact h
        obtain ⟨h1, c2, itype2, hlk2, hbad2, hmem2⟩ :=
          ih (fun c3 hc3 => hall c3 (by simp [hc3])) ⟨c, itype, hcrest, hlk, hbad⟩
        refine ⟨?_, c2, itype2, hlk2, hbad2, ?_⟩
        · simp [corner_loop, halk0, hsup, h1]
        · simp [corner_loop, halk0, hsup]
          exact hmem2

/-- C8: requesting an unknown corner name, or a known corner that does not
support the requested output variant, is non-fatal: main returns failure
code 1 (rather than raising), reports the offending corner, and reports the
valid alternatives - the sorted available corner names in the unknown case,
and the variant the corner does support in the unsupported case. -/
theorem claim_C8_nonfatal_corner_errors :
    (∀ (corners : List (Str × Nat)) (requested : List Str) (otype : Nat) (c : Str),
      requested ≠ [allStr] →
      c ∈ requested →
      memKey c corners = false →
      (main_run corners requested otype).1 = 1 ∧
      Report.unknownCorner c ∈ (main_run corners requested otype).2 ∧
      Report.availableCorners (sortStr (corners.map Prod.fst))
        ∈ (main_run corners requested otype).2) ∧
    (∀ (corners : List (Str × Nat)) (requested : List Str) (otype : Nat),
      requested ≠ [allStr] →
      (∀ c ∈ requested, memKey c corners = true) →
      (∃ c itype, c ∈ requested ∧ alookup c corners = some itype ∧
        TimingType.ttIn otype itype = false) →
      (main_run corners requested otype).1 = 1 ∧
      ∃ c2 itype2, alookup c2 corners = some itype2 ∧
        TimingType.ttIn otype itype2 = false ∧
        Report.unsupported c2 otype itype2 ∈ (main_run corners requested otype).2) := by
  constructor
  · intro corners requested otype c hne hc hunk
    have hnall : ¬ (∀ a ∈ requested, memKey a corners = true) := by
      intro hA
      rw [hA c hc] at hunk
      exact absurd hunk (by decide)
    have hex : ∃ x ∈ requested, memKey x corners = false := ⟨c, hc, hunk⟩
    refine ⟨?_, ?_, ?_⟩
    · simp [main_run, hne, hnall, hex]
    · simp [main_run, hne, hnall, hex]
      exact ⟨hc, hunk⟩
    · simp [main_run, hne, hnall, hex]
  · intro corners requested otype hne hall hbad
    have hnex : ¬ ∃ x ∈ requested, memKey x corners = false := by
      rintro ⟨x, hx, hfx⟩
      rw [hall x hx] at hfx
      exact absurd hfx (by decide)
    have hreqnil : requested ≠ [] := by
      obtain ⟨c, itype, hc, _, _⟩ := hbad
      intro hnil
      rw [hnil] at hc
      exact absurd hc (by simp)
    obtain ⟨h1, c2, itype2, hlk2, hbad2, hmem2⟩ :=
      corner_loop_unsupported corners otype requested hall hbad
    refine ⟨?_, c2, itype2, hlk2, hbad2, ?_⟩
    · simp [main_run, hne, hall, hnex, hreqnil]
      exact h1
    · simp [main_run, hne, hall, hnex, hreqnil]
      exact hmem2

theorem claim_C8_witness :
    ((main_run [((r"corn").toList, 1)] [(r"bad").toList] 1).1 = 1 ∧
      Report.unknownCorner ((r"bad").toList)
        ∈ (main_run [((r"corn").toList, 1)] [(r"bad").toList] 1).2 ∧
      Report.availableCorners (sortStr ([((r"corn").toList, 1)].map Prod.fst))
        ∈ (main_run [((r"corn").toList, 1)] [(r"bad").toList] 1).2) ∧
    ((main_run [((r"corn").toList, 3)] [(r"corn").toList] 4).1 = 1 ∧
      ∃ c2 itype2, alookup c2 [((r"corn").toList, 3)] = some itype2 ∧
        TimingType.ttIn 4 itype2 = false ∧
        Report.unsupported c2 4 itype2
          ∈ (main_run [((r"corn").toList, 3)] [(r"corn").toList] 4).2) := by
  constructor
  · exact claim_C8_nonfatal_corner_errors.1 [((r"corn").toList, 1)]
      [(r"bad").toList] 1 ((r"bad").toList) (by decide) (by decide) (by decide)
  · exact claim_C8_nonfatal_corner_errors.2 [((r"corn").toList, 3)]
      [(r"corn").toList] 4 (by decide) (by decide)
      ⟨(r"corn").toList, 3, by decide, rfl, by decide⟩

/- ---------------------------------------------------------------------
   C9: the consistency pass of collect (liberty.py lines 220-236), with the
   path builders cell_corner_file (126-147) and top_corner_file (150-162).
   The filesystem is an abstract existence predicate over the paths collect
   builds (relative to the library directory); the size lookup
   `sizes.parse_size` is an external collaborator passed in as an opaque
   function returning the optional size suffix to strip.
   --------------------------------------------------------------------- -/

def dunder : Str := (r"__").toList

def libJsonExt : Str := (r".lib.json").toList

/- Python `s[:-n]`: for n = 0 this is `s[:0]`, the empty string. -/
def pySliceDropSuffix (l : Str) (n : Nat) : Str :=
  if n == 0 then [] else l.take (l.length - n)

def cell_corner_file (parse_size : Str → Option Str)
    (lib cell_with_size corner : Str) (ctype : Nat) : Str :=
  let cell :=
    match parse_size cell_with_size with
    | some suf => pySliceDropSuffix cell_with_size suf.length
    | none => cell_with_size
  (r"cells/").toList ++ cell ++ ['/'] ++ lib ++ dunder ++ cell_with_size
    ++ dunder ++ corner ++ TimingType.file ctype ++ libJsonExt

def top_corner_file (lib corner : Str) (ctype : Nat) : Str :=
  (r"timing/").toList ++ lib ++ dunder ++ corner ++ TimingType.file ctype
    ++ libJsonExt

def insPair (x : Str × Nat) : List (Str × Nat) → List (Str × Nat)
  | [] => [x]
  | y :: ys => if strLtB x.1 y.1 then x :: y :: ys else y :: insPair x ys

/- `sorted(corners.items())`: corner names are unique, so sorting the pairs
   equals sorting by name. -/
def sortPairs : List (Str × Nat) → List (Str × Nat)
  | [] => []
  | x :: xs => insPair x (sortPairs xs)

/- Every file the consistency pass asserts to exist, in assertion order:
   all per-cell files (cells outer, sorted corners inner, singular variant
   types innermost), then the timing directory itself, then the top-level
   corner files. -/
def requiredPaths (parse_size : Str → Option Str) (lib : Str)
    (cells : List Str) (corners : List (Str × Nat)) : List Str :=
  cells.flatMap (fun cell =>
    (sortPairs corners).flatMap (fun kv =>
      (TimingType.typesOf kv.2).map (fun t =>
        cell_corner_file parse_size lib cell kv.1 t)))
  ++ [(r"timing").toList]
  ++ (sortPairs corners).flatMap (fun kv =>
      (TimingType.typesOf kv.2).map (fun t => top_corner_file lib kv.1 t))

/- The chain of `assert os.path.exists(fpath), fpath`: the first missing
   path aborts the run, naming that path. -/
def checkAll (fs : Str → Bool) : List Str → Except Str Unit
  | [] => .ok ()
  | p :: rest => if fs p then checkAll fs rest else .error p

def consistencyCheck (fs : Str → Bool) (parse_size : Str → Option Str)
    (lib : Str) (cells : List Str) (corners : List (Str × Nat)) :
    Except Str Unit :=
  checkAll fs (requiredPaths parse_size lib cells corners)

theorem checkAll_ok (fs : Str → Bool) (l : List Str)
    (h : ∀ p ∈ l, fs p = true) : checkAll fs l = .ok () := by
  induction l with
  | nil => rfl
  | cons p rest ih =>
    have hp := h p (by simp)
    simp only [checkAll, hp, if_true]
    exact ih (fun q hq => h q (by simp [hq]))

theorem checkAll_error_of_missing (fs : Str → Bool) (l : List Str)
    (h : ∃ p ∈ l, fs p = false) :
    ∃ p, checkAll fs l = .error p ∧ p ∈ l ∧ fs p = false := by
  induction l with
  | nil =>
    obtain ⟨p, hp, _⟩ := h
    exact absurd hp (by simp)
  | cons p0 rest ih =>
    cases hval : fs p0 with
    | false => exact ⟨p0, by simp [checkAll, hval], by simp, hval⟩
    | true =>
      obtain ⟨p, hp, hfp⟩ := h
      have hprest : p ∈ rest := by
        rcases List.mem_cons.mp hp with h2 | h2
        · rw [h2] at hfp
          rw [hval] at hfp
          exact absurd hfp (by decide)
        · exact h2
      obtain ⟨p2, he2, hm2, hf2⟩ := ih ⟨p, hprest, hfp⟩
      exact ⟨p2, by simp [checkAll, hval, he2], by simp [hm2], hf2⟩

theorem checkAll_error_unique (fs : Str → Bool) (l : List Str) (p : Str)
    (hp : p ∈ l) (hmiss : fs p = false)
    (hothers : ∀ q ∈ l, q ≠ p → fs q = true) :
    checkAll fs l = .error p := by
  induction l with
  | nil => exact absurd hp (by simp)
  | cons q0 rest ih =>
    by_cases hq : q0 = p
    · subst hq
      simp [checkAll, hmiss]
    · have hfq : fs q0 = true := hothers q0 (by simp) hq
      have hprest : p ∈ rest := by
        rcases List.mem_cons.mp hp with h2 | h2
        · exact absurd h2.symm hq
        · exact h2
      simp only [checkAll, hfq, if_true]
      exact ih hprest (fun q hq2 hne => hothers q (by simp [hq2]) hne)

/-- C9: discovery's consistency pass: whenever any of the per-cell or
timing/ top-level files implied by the recorded corner variant sets is
absent from the filesystem, the pass fails fatally with an error naming a
missing required path; when exactly one required path is missing the error
names exactly that path; and when everything exists the pass succeeds. -/
theorem claim_C9_discovery_consistency (fs : Str → Bool)
    (parse_size : Str → Option Str) (lib : Str) (cells : List Str)
    (corners : List (Str × Nat)) :
    ((∃ p ∈ requiredPaths parse_size lib cells corners, fs p = false) →
      ∃ p, consistencyCheck fs parse_size lib cells corners = .error p ∧
        p ∈ requiredPaths parse_size lib cells corners ∧ fs p = false) ∧
    (∀ p, p ∈ requiredPaths parse_size lib cells corners → fs p = false →
      (∀ q ∈ requiredPaths parse_size lib cells corners, q ≠ p → fs q = true) →
      consistencyCheck fs parse_size lib cells corners = .error p) ∧
    ((∀ p ∈ requiredPaths parse_size lib cells corners, fs p = true) →
      consistencyCheck fs parse_size lib cells corners = .ok ()) := by
  refine ⟨?_, ?_, ?_⟩
  · intro h
    exact checkAll_error_of_missing fs _ h
  · intro p hp hmiss hothers
    exact checkAll_error_unique fs _ p hp hmiss hothers
  · intro h
    exact checkAll_ok fs _ h

theorem claim_C9_witness :
    consistencyCheck
      (fun p => !(p == (r"cells/foo/lib__foo__corn.lib.json").toList))
      (fun _ => none) ((r"lib").toList) [(r"foo").toList]
      [((r"corn").toList, 1)]
      = .error ((r"cells/foo/lib__foo__corn.lib.json").toList) := by
  exact (claim_C9_discovery_consistency
    (fun p => !(p == (r"cells/foo/lib__foo__corn.lib.json").toList))
    (fun _ => none) ((r"lib").toList) [(r"foo").toList]
    [((r"corn").toList, 1)]).2.1
    ((r"cells/foo/lib__foo__corn.lib.json").toList)
    (by decide) (by decide) (by decide)

/- ---------------------------------------------------------------------
   C10: liberty_join (liberty.py lines 447-479) and liberty_list (482-498).
   --------------------------------------------------------------------- -/

def assertErrorMsg : Str := (r"AssertionError").toList

inductive JoinKind where
  | floats : JoinKind
  | ints : JoinKind
deriving DecidableEq

def isFltV : JVal → Bool
  | .jflt _ => true
  | _ => false

def isIntV : JVal → Bool
  | .jint _ => true
  | _ => false

/- liberty_join counts the exact Python types of the elements: any float
   present requires everything to be a float or an int (rendered with
   liberty_float); otherwise any int present requires ints only (rendered
   with str()); an empty or unrecognized list raises ValueError.  The
   returned closure is represented by a JoinKind. -/
def liberty_join_kind (l : List JVal) : Except Str JoinKind :=
  if l.any isFltV then
    if l.all (fun e => isFltV e || isIntV e) then .ok .floats
    else .error assertErrorMsg
  else if l.any isIntV then
    if l.all isIntV then .ok .ints else .error assertErrorMsg
  else .error valueErrorMsg

mutual

/- Python `repr`, as used by str() on containers (string escaping inside
   repr is omitted; the keys and strings handled here carry no quotes). -/
def pyRepr : JVal → Str
  | .jnull => (r"None").toList
  | .jbool true => (r"True").toList
  | .jbool false => (r"False").toList
  | .jint n => intDumps n
  | .jflt r => r
  | .jstr s => '\'' :: s ++ ['\'']
  | .jarr l => '\x5b' :: joinSep commaSp (pyReprList l) ++ ['\x5d']
  | .jobj m => '\x7b' :: joinSep commaSp (pyReprObj m) ++ ['\x7d']

def pyReprList : List JVal → List Str
  | [] => []
  | v :: rest => pyRepr v :: pyReprList rest

def pyReprObj : List (Str × JVal) → List Str
  | [] => []
  | (k, v) :: rest =>
      (('\'' :: k ++ ['\'']) ++ (r": ").toList ++ pyRepr v) :: pyReprObj rest

end

/- Python `str(f)`: identical to repr except on strings themselves. -/
def pyStr : JVal → Str
  | .jstr s => s
  | v => pyRepr v

/- The join closure chosen by liberty_join, applied to one row. -/
def applyJoin : JoinKind → List JVal → Str
  | .floats, l => joinSep commaSp (l.map liberty_float)
  | .ints, l => joinSep commaSp (l.map pyStr)

/- `join(l)` iterates its argument: a list yields its elements, a string
   its characters (as length-1 strings), a dict its keys; numbers are not
   iterable. -/
def rowValues : JVal → Except Str (List JVal)
  | .jarr l => .ok l
  | .jstr s => .ok (s.map (fun c => .jstr [c]))
  | .jobj m => .ok (m.map (fun kv => .jstr kv.1))
  | _ => .error typeErrorMsg

def indent (i : Nat) : Str := (List.replicate i ((r"    ").toList)).flatten

/- `o[-1] = o[-1][:-3] + ');'` -/
def closeLast : List Str → List Str
  | [] => []
  | [l] => [l.take (l.length - 3) ++ (r");").toList]
  | l :: rest => l :: closeLast rest

/- def liberty_list(i, k, v): the join closure is built once from v[0]
   when v[0] is a list (a table), then applied to every row; the first
   continuation line is glued onto the header and the last line's
   continuation marker is replaced by the closer. -/
def liberty_list (i : Nat) (k : Str) (v : List JVal) : Except Str (List Str) :=
  match v with
  | [] => .error indexErrorMsg
  | first :: _ =>
    match first with
    | .jarr r0 =>
      match liberty_join_kind r0 with
      | .error e => .error e
      | .ok kind =>
        match mapExc rowValues v with
        | .error e => .error e
        | .ok rows =>
          match rows.map (fun r =>
              indent (i+1) ++ '"' :: applyJoin kind r ++ '"' :: (r", \").toList) with
          | [] => .error indexErrorMsg
          | l1 :: restL =>
            .ok (closeLast (((indent i ++ k ++ ['(']) ++ l1) :: restL))
    | _ =>
      match liberty_join_kind v with
      | .error e => .error e
      | .ok kind =>
        .ok [indent i ++ k ++ '(' :: '"' :: applyJoin kind v
          ++ ('"' :: (r");").toList)]

def excOk {α : Type} : Except Str α → Bool
  | .ok _ => true
  | .error _ => false

theorem mapExc_rowValues_jarr (l : List (List JVal)) :
    mapExc rowValues (l.map .jarr) = .ok l := by
  induction l with
  | nil => rfl
  | cons x xs ih => simp [mapExc, rowValues, ih]

/-- C10: for a table-shaped list attribute the rendering rule (fixed-width
float vs plain decimal integer) is chosen once from the element types of
the first row and applied to every row: with list-shaped rows the emission
succeeds exactly when the join choice on the first row succeeds, whatever
the later rows' element types are, and concretely a table whose first row
is a float row renders a later string-element row with the float rule (note
the `"x".00000000` text), raising no error. -/
theorem claim_C10_table_first_row :
    (∀ (i : Nat) (k : Str) (r0 : List JVal) (rows : List (List JVal)),
      excOk (liberty_list i k (.jarr r0 :: rows.map .jarr))
        = excOk (liberty_join_kind r0)) ∧
    liberty_join_kind [JVal.jflt ((r"1.5").toList)] = .ok .floats ∧
    liberty_list 0 ((r"values").toList)
        [.jarr [.jflt ((r"1.5").toList)], .jarr [.jstr ((r"x").toList)]]
      = .ok [("values(    \"1.5000000000\", \\").toList,
             ("    \"\"x\".00000000\");").toList] := by
  refine ⟨?_, rfl, rfl⟩
  intro i k r0 rows
  cases hk : liberty_join_kind r0 with
  | error e => simp [liberty_list, hk, excOk]
  | ok kind =>
    have hrows : mapExc rowValues (JVal.jarr r0 :: rows.map JVal.jarr)
        = .ok (r0 :: rows) := by
      have h2 := mapExc_rowValues_jarr (r0 :: rows)
      simpa using h2
    simp [liberty_list, hk, hrows, excOk]
